import Mathlib

/-!
# Verification of the `markov.py` Markov-chain text model

A shallow embedding of `src/markov.py` (tokenizer, `MarkovChain` training,
weighted sampling, generation loop, and dict (de)serialization), together
with theorems settling the specification claims about it.

Modelling conventions:
* Python strings are `List Char`; a token is a `List Char`.
* Python dicts (which preserve insertion order) are association lists with
  unique keys; `dictGet`/`dictInsert` give the read/assign semantics.
* The injected `random.Random` source is a stream `Nat → Nat` consumed one
  value per primitive call (`randrange` / `choice`), each reduced modulo the
  requested bound; a position counter is threaded to model the shared
  stateful generator.
* The unbounded `while` loop of `generate_words` is given explicit fuel and
  returns `Option`; `none` covers both non-termination (fuel exhausted) and
  the Python exception paths (`randrange(0)`, `choice([])`).
-/

/-! ## Tokenizer

Python: `_word_re = re.compile(r"[A-Za-zÀ-ÿ']+|[.?!]")`, and
`tokenize(text) = _word_re.findall(text)`, i.e. a left-to-right scan that
emits maximal runs of word characters and single punctuation characters,
discarding everything else. -/

/-- Characters of the regex class `[A-Za-zÀ-ÿ']`: ASCII letters, the
codepoint range U+00C0–U+00FF, and the apostrophe (codepoint 39). -/
def isWordChar (c : Char) : Bool :=
  (65 ≤ c.toNat && c.toNat ≤ 90) || (97 ≤ c.toNat && c.toNat ≤ 122) ||
  (192 ≤ c.toNat && c.toNat ≤ 255) || (c.toNat == 39)

/-- Characters of the regex class `[.?!]`. -/
def isPunctChar (c : Char) : Bool :=
  c == '.' || c == '?' || c == '!'

/-- Emit the pending (reversed) word run as a token, if non-empty. -/
def flushRun (run : List Char) : List (List Char) :=
  if run.isEmpty then [] else [run.reverse]

/-- Left-to-right scanner realizing `_word_re.findall`: `run` holds the
current word run (reversed). A word character extends the run; any other
character flushes it, with `.`/`?`/`!` additionally emitted as their own
single-character token and all other characters discarded. -/
def tokenizeGo : List Char → List Char → List (List Char)
  | [], run => flushRun run
  | c :: rest, run =>
    if isWordChar c then tokenizeGo rest (c :: run)
    else if isPunctChar c then flushRun run ++ [c] :: tokenizeGo rest []
    else flushRun run ++ tokenizeGo rest []

/-- Python function `tokenize(text)` from `markov.py`. -/
def tokenize (s : List Char) : List (List Char) :=
  tokenizeGo s []

/-! ## Data model -/

/-- A token (Python `str`). -/
abbrev Token := List Char

/-- A state: tuple of tokens (Python `Tuple[str, ...]`). -/
abbrev MCState := List Token

/-- A successor distribution: Python `Dict[str, int]` as an ordered
association list. -/
abbrev MCDist := List (Token × Nat)

/-- The transition table: Python `Dict[Tuple[str, ...], Dict[str, int]]`. -/
abbrev MCTrans := List (MCState × MCDist)

/-- Python `dict.get`: the value stored at `k`, if present. -/
def dictGet {α β : Type} [DecidableEq α] (d : List (α × β)) (k : α) : Option β :=
  match d with
  | [] => none
  | p :: rest => if p.1 = k then some p.2 else dictGet rest k

/-- Python `d[k] = v`: overwrite in place if `k` is present (keeping its
position), otherwise append the new entry at the end (dict insertion
order). -/
def dictInsert {α β : Type} [DecidableEq α] (d : List (α × β)) (k : α) (v : β) :
    List (α × β) :=
  if d.any (fun p => decide (p.1 = k)) then
    d.map (fun p => if p.1 = k then (k, v) else p)
  else d ++ [(k, v)]

/-- The model state of class `MarkovChain`. -/
structure MarkovChain where
  order : Nat
  transitions : MCTrans
  starts : List MCState
deriving DecidableEq

/-- Python constructor `MarkovChain.__init__`: `order < 1` raises `ValueError`, otherwise the
model starts with an empty table and no start states. -/
def MarkovChain.make (order : Int) : Option MarkovChain :=
  if order < 1 then none
  else some { order := order.toNat, transitions := [], starts := [] }

/-! ## Training (`add_text`) -/

/-- Python test `tok in (".", "?", "!")`. -/
def isPunctTok (t : Token) : Bool :=
  t == ['.'] || t == ['?'] || t == ['!']

/-- Python statement `dist[nxt] += 1` on a `defaultdict(int)`: read the current count
(default 0) and store its successor. -/
def distIncr (d : MCDist) (t : Token) : MCDist :=
  dictInsert d t ((dictGet d t).getD 0 + 1)

/-- Python statement `self.transitions[state][nxt] += 1` on the nested `defaultdict`: the
missing outer entry defaults to an empty distribution before the inner
increment. -/
def transIncr (tr : MCTrans) (s : MCState) (t : Token) : MCTrans :=
  dictInsert tr s (distIncr ((dictGet tr s).getD []) t)

/-- Python method `MarkovChain.add_text`. -/
def addText (mc : MarkovChain) (text : List Char) : MarkovChain :=
  let tokens := tokenize text
  if tokens.length ≤ mc.order then mc
  else
    let sentStarts : List Nat :=
      0 :: ((List.range tokens.length).filter
        (fun i => isPunctTok (tokens.getD i []) && decide (i + 1 < tokens.length))).map
          (fun i => i + 1)
    let newStarts :=
      (sentStarts.filter (fun s => decide (s + mc.order < tokens.length))).map
        (fun s => (tokens.drop s).take mc.order)
    let newTrans :=
      (List.range (tokens.length - mc.order)).foldl
        (fun tr i => transIncr tr ((tokens.drop i).take mc.order)
          (tokens.getD (i + mc.order) []))
        mc.transitions
    { order := mc.order, transitions := newTrans, starts := mc.starts ++ newStarts }

/-- A model built by the constructor followed by any sequence of `add_text`
calls. -/
def buildModel (order : Int) (texts : List (List Char)) : Option MarkovChain :=
  (MarkovChain.make order).map (fun m => texts.foldl addText m)

/-! ## Weighted sampling (`_next_weighted`) -/

/-- Python expression `sum(dist.values())`. -/
def distTotal (d : MCDist) : Nat :=
  (d.map (fun p => p.2)).sum

/-- The accumulation walk of `_next_weighted`: `cum` accumulates the counts
seen so far; the first entry whose cumulative count exceeds the draw `r` is
returned. Falling off the end returns `None` ("should not happen"). -/
def walkDist : MCDist → Nat → Nat → Option Token
  | [], _, _ => none
  | p :: rest, r, cum => if r < cum + p.2 then some p.1 else walkDist rest r (cum + p.2)

/-- Python method `MarkovChain._next_weighted`, with the random source as a value stream
`rng` read at position `pos`. The outer `Option` is the exception path:
`none` models `rng.randrange(0)` raising `ValueError`. A `some (o, pos2)`
result carries Python's return value `o` and the stream position after the
call (`randrange` consumes one value; the early `None` returns consume
none). -/
def nextWeighted (mc : MarkovChain) (s : MCState) (rng : Nat → Nat) (pos : Nat) :
    Option (Option Token × Nat) :=
  match dictGet mc.transitions s with
  | none => some (none, pos)
  | some dist =>
    if dist.isEmpty then some (none, pos)
    else
      let total := distTotal dist
      if total = 0 then none
      else some (walkDist dist (rng pos % total) 0, pos + 1)

/-! ## Generation (`generate_words`) -/

/-- Python truthiness of `re.match(r"[A-Za-zÀ-ÿ']+$", t)`: the whole token is a
non-empty run of word characters, or such a run followed by one final
newline (Python's `$` also matches just before a trailing newline). -/
def alphaMatch (t : Token) : Bool :=
  (!t.isEmpty && t.all isWordChar) ||
  (t.getLast? == some (Char.ofNat 10) && !t.dropLast.isEmpty && t.dropLast.all isWordChar)

/-- Python helper `alpha_count(seq)`: the number of word tokens in the buffer. -/
def alphaCount (seq : List Token) : Nat :=
  seq.countP alphaMatch

/-- Python `out[-order:]` (for `order = 0` the slice `out[-0:]` is the whole
list). -/
def takeLast (n : Nat) (l : List Token) : List Token :=
  if n = 0 then l else l.drop (l.length - n)

/-- The `while alpha_count(out) < n_words` loop of `generate_words`, with
explicit fuel. `rng.choice(self.starts)` is the stream value at the current
position reduced modulo the length; on an empty `starts` it would raise
`IndexError`, modelled as `none` (that branch is unreachable from
`generate_words`, which returns early when `starts` is empty). -/
def generateLoop (mc : MarkovChain) (n : Nat) (rng : Nat → Nat) :
    Nat → Nat → List Token → Option (List Token)
  | 0, _, _ => none
  | fuel + 1, pos, out =>
    if alphaCount out < n then
      match nextWeighted mc (takeLast mc.order out) rng pos with
      | none => none
      | some (some nxt, pos2) => generateLoop mc n rng fuel pos2 (out ++ [nxt])
      | some (none, pos2) =>
        if mc.starts.isEmpty then none
        else
          generateLoop mc n rng fuel (pos2 + 1)
            (out ++ mc.starts.getD (rng pos2 % mc.starts.length) [])
    else some out

/-- Python method `MarkovChain.generate_words(n_words, rng)`: empty result on a model with
no start states; otherwise seed the buffer with a random start state, run
the loop, and keep the first `n_words` word tokens. -/
def generateWords (mc : MarkovChain) (n : Nat) (rng : Nat → Nat) (fuel : Nat) :
    Option (List Token) :=
  if mc.starts.isEmpty then some []
  else
    match generateLoop mc n rng fuel 1 (mc.starts.getD (rng 0 % mc.starts.length) []) with
    | none => none
    | some out => some ((out.filter alphaMatch).take n)

/-! ## Serialization (`to_dict` / `from_dict`) -/

/-- The structured record produced by `to_dict` and consumed by
`from_dict`; `none` fields model absent dict keys (read through
`data.get`). -/
structure Snapshot where
  version : Option Int
  order : Option Int
  starts : Option (List (List Char))
  transitions : Option (List (List Char × MCDist))
deriving DecidableEq

/-- Python expression `"|||".join(state)`. -/
def joinPipes : MCState → List Char
  | [] => []
  | [t] => t
  | t :: t2 :: ts => t ++ '|' :: '|' :: '|' :: joinPipes (t2 :: ts)

/-- Python expression `s.split("|||")`, leftmost non-overlapping matches; `acc` holds the
current field (reversed). -/
def splitPipesGo : List Char → List Char → MCState
  | c :: c2 :: c3 :: r2, acc =>
    if c == '|' && c2 == '|' && c3 == '|' then acc.reverse :: splitPipesGo r2 []
    else splitPipesGo (c2 :: c3 :: r2) (c :: acc)
  | c :: rest, acc => splitPipesGo rest (c :: acc)
  | [], acc => [acc.reverse]

/-- Python expression `tuple(s.split("|||"))`. -/
def splitPipes (s : List Char) : MCState :=
  splitPipesGo s []

/-- Python method `MarkovChain.to_dict`: join each state key with `"|||"`; the dict
comprehension inserts the serialized entries in iteration order. -/
def toDict (mc : MarkovChain) : Snapshot where
  version := some 1
  order := some (mc.order : Int)
  starts := some (mc.starts.map joinPipes)
  transitions := some
    (mc.transitions.foldl (fun acc p => dictInsert acc (joinPipes p.1) p.2) [])

/-- Python method `MarkovChain.from_dict`: `order` defaults to 2 when absent (and the
constructor raises when it is below 1, hence `Option`); `starts` and
`transitions` default to empty; state keys are split on `"|||"` and each
serialized distribution is assigned into the fresh table. -/
def fromDict (data : Snapshot) : Option MarkovChain :=
  let order := data.order.getD 2
  if order < 1 then none
  else some
    { order := order.toNat
      starts := (data.starts.getD []).map splitPipes
      transitions :=
        (data.transitions.getD []).foldl
          (fun acc p => dictInsert acc (splitPipes p.1) p.2) [] }

/-- The transition table flattened to (state, successor, count) triples, the
multiset compared by the round-trip contract. -/
def transTriples (mc : MarkovChain) : List (MCState × Token × Nat) :=
  mc.transitions.flatMap (fun p => p.2.map (fun q => (p.1, q.1, q.2)))

/-! ## Verification-side predicates and fixtures -/

/-- A token with no pipe character (`"|"`, codepoint 124). -/
def pipeFreeTok (t : Token) : Prop :=
  ∀ c ∈ t, c ≠ '|'

/-- A state of the right length whose tokens are pipe-free. -/
def goodState (k : Nat) (s : MCState) : Prop :=
  s.length = k ∧ ∀ t ∈ s, pipeFreeTok t

/-- Invariant of every model reachable by the constructor and `add_text`:
the table keys are distinct, keys and start states have length `order` and
pipe-free tokens, and every stored distribution is non-empty with positive
counts. -/
def modelInv (mc : MarkovChain) : Prop :=
  (mc.transitions.map Prod.fst).Nodup ∧
  (∀ p ∈ mc.transitions, goodState mc.order p.1 ∧ p.2 ≠ [] ∧ ∀ q ∈ p.2, 1 ≤ q.2) ∧
  (∀ s ∈ mc.starts, goodState mc.order s)

/-- The order-1 model trained on `"a . . . ."`: every walk from any start
state emits periods forever, so `generate_words` with `n_words = 2` never
terminates. -/
def divergentModel : MarkovChain where
  order := 1
  transitions := [([['a']], [(['.'], 1)]), ([['.']], [(['.'], 3)])]
  starts := [[['a']], [['.']], [['.']]]

/-- A model with a single state whose successors are `A` with count 3 and
`B` with count 1 (the spec's weighted-sampling example). -/
def sampleModel : MarkovChain where
  order := 1
  transitions := [([['s']], [(['A'], 3), (['B'], 1)])]
  starts := [[['s']]]

/-! # Theorems -/

/-! ## Association-list (Python dict) lemmas -/

lemma dictGet_mem {α β : Type} [DecidableEq α] {d : List (α × β)} {k : α} {v : β}
    (h : dictGet d k = some v) : (k, v) ∈ d := by
  induction d with
  | nil => simp [dictGet] at h
  | cons p rest ih =>
    rw [dictGet] at h
    by_cases hp : p.1 = k
    · rw [if_pos hp] at h
      have hv : p.2 = v := Option.some.inj h
      have hpkv : p = (k, v) := by rw [← hp, ← hv]
      rw [← hpkv]; exact List.mem_cons_self p rest
    · rw [if_neg hp] at h
      exact List.mem_cons_of_mem p (ih h)

lemma dictGet_eq_none {α β : Type} [DecidableEq α] {d : List (α × β)} {k : α}
    (h : k ∉ d.map Prod.fst) : dictGet d k = none := by
  induction d with
  | nil => rfl
  | cons p rest ih =>
    simp only [List.map_cons, List.mem_cons, not_or] at h
    rw [dictGet, if_neg (fun hp => h.1 hp.symm)]
    exact ih h.2

lemma mem_dictInsert {α β : Type} [DecidableEq α] {d : List (α × β)} {k : α} {v : β} {p : α × β}
    (hp : p ∈ dictInsert d k v) : p ∈ d ∨ p = (k, v) := by
  unfold dictInsert at hp
  split at hp
  · obtain ⟨q, hq, hqe⟩ := List.mem_map.mp hp
    by_cases hqk : q.1 = k
    · right; rw [← hqe]; simp [hqk]
    · left; rw [← hqe]; simp only [if_neg hqk]; exact hq
  · rcases List.mem_append.mp hp with h | h
    · exact Or.inl h
    · right; simpa using h

lemma dictInsert_keys_of_any {α β : Type} [DecidableEq α] {d : List (α × β)} {k : α} {v : β}
    (h : d.any (fun p => decide (p.1 = k)) = true) :
    (dictInsert d k v).map Prod.fst = d.map Prod.fst := by
  unfold dictInsert
  rw [if_pos h, List.map_map]
  apply List.map_congr_left
  intro q _
  by_cases hqk : q.1 = k <;> simp [hqk]

lemma dictInsert_keys_nodup {α β : Type} [DecidableEq α] {d : List (α × β)} {k : α} {v : β}
    (h : (d.map Prod.fst).Nodup) : ((dictInsert d k v).map Prod.fst).Nodup := by
  by_cases hany : d.any (fun p => decide (p.1 = k)) = true
  · rw [dictInsert_keys_of_any hany]; exact h
  · unfold dictInsert
    rw [if_neg hany, List.map_append, List.nodup_append]
    refine ⟨h, by simp, ?_⟩
    intro a ha hb
    simp only [List.map_cons, List.map_nil, List.mem_singleton] at hb
    subst hb
    simp only [List.any_eq_true, decide_eq_true_eq] at hany
    obtain ⟨q, hq, hqe⟩ := List.mem_map.mp ha
    exact hany ⟨q, hq, hqe⟩

lemma dictInsert_of_not_mem {α β : Type} [DecidableEq α] {d : List (α × β)} {k : α} {v : β}
    (h : k ∉ d.map Prod.fst) : dictInsert d k v = d ++ [(k, v)] := by
  unfold dictInsert
  rw [if_neg ?hne]
  case hne =>
    simp only [List.any_eq_true, decide_eq_true_eq, not_exists]
    intro q hq
    exact h (List.mem_map.mpr ⟨q, hq.1, hq.2⟩)

lemma foldl_dictInsert_eq_append {α β : Type} [DecidableEq α] :
    ∀ (l acc : List (α × β)), ((acc ++ l).map Prod.fst).Nodup →
      l.foldl (fun d p => dictInsert d p.1 p.2) acc = acc ++ l := by
  intro l
  induction l with
  | nil => intro acc _; simp
  | cons p rest ih =>
    intro acc hnd
    have hkey : p.1 ∉ acc.map Prod.fst := by
      rw [List.map_append, List.nodup_append] at hnd
      intro hmem
      exact hnd.2.2 hmem (by simp)
    have hstep : dictInsert acc p.1 p.2 = acc ++ [p] := by
      rw [dictInsert_of_not_mem hkey]
    rw [List.foldl_cons, hstep]
    have hnd2 : (((acc ++ [p]) ++ rest).map Prod.fst).Nodup := by
      rw [List.append_assoc]; simpa using hnd
    rw [ih (acc ++ [p]) hnd2, List.append_assoc]
    simp

/-! ## Tokenizer lemmas -/

lemma flushRun_nil : flushRun [] = [] := rfl

lemma tokenizeGo_word_run (t : List Char) (hw : t.all isWordChar = true) :
    ∀ (s run : List Char), tokenizeGo (t ++ s) run = tokenizeGo s (t.reverse ++ run) := by
  induction t with
  | nil => intro s run; simp
  | cons c t ih =>
    intro s run
    simp only [List.all_cons, Bool.and_eq_true] at hw
    rw [List.cons_append, tokenizeGo.eq_def]
    simp only [hw.1, if_true]
    rw [ih hw.2 s (c :: run)]
    simp [List.append_assoc]

lemma tokenizeGo_not_word {c : Char} (hc : isWordChar c = false) (s run : List Char) :
    tokenizeGo (c :: s) run = flushRun run ++ tokenizeGo (c :: s) [] := by
  by_cases hp : isPunctChar c <;>
    simp [tokenizeGo, hc, hp, flushRun_nil]

lemma tokenize_nil : tokenize [] = [] := rfl

lemma tokenize_word_head {c : Char} (hc : isWordChar c = true) (s : List Char) :
    tokenize (c :: s) =
      (c :: s.takeWhile isWordChar) :: tokenize (s.dropWhile isWordChar) := by
  have hsplit := List.takeWhile_append_dropWhile (p := isWordChar) (l := s)
  rw [tokenize, tokenizeGo.eq_def]
  simp only [hc, if_true]
  conv_lhs => rw [← hsplit]
  rw [tokenizeGo_word_run _ List.all_takeWhile _ [c]]
  rcases hd : s.dropWhile isWordChar with _ | ⟨c2, s2⟩
  · simp [tokenize, tokenizeGo, flushRun, hd]
  · have hc2 : isWordChar c2 = false := by
      have hh := List.head_dropWhile_not isWordChar s
      rw [hd] at hh
      simpa using hh (by simp)
    rw [tokenizeGo_not_word hc2]
    simp [tokenize, flushRun, hd]

lemma tokenize_punct_head {c : Char} (hw : isWordChar c = false)
    (hp : isPunctChar c = true) (s : List Char) :
    tokenize (c :: s) = [c] :: tokenize s := by
  simp [tokenize, tokenizeGo, hw, hp, flushRun_nil]

lemma tokenize_other_head {c : Char} (hw : isWordChar c = false)
    (hp : isPunctChar c = false) (s : List Char) :
    tokenize (c :: s) = tokenize s := by
  simp [tokenize, tokenizeGo, hw, hp, flushRun_nil]

/-- C6: `tokenize("Hello, world! Café.")` is exactly
`["Hello", "world", "!", "Café", "."]`; `tokenize("")` is empty; and in
general the scan emits, at a word character, the maximal word-character run
as one token, at `.`/`?`/`!` a single-character token, and skips every
other character. -/
theorem claim_C6_tokenize :
    tokenize "Hello, world! Café.".toList =
      ["Hello".toList, "world".toList, "!".toList, "Café".toList, ".".toList] ∧
    tokenize ([] : List Char) = [] ∧
    (∀ (c : Char) (s : List Char), isWordChar c = true →
      tokenize (c :: s) = (c :: s.takeWhile isWordChar) :: tokenize (s.dropWhile isWordChar)) ∧
    (∀ (c : Char) (s : List Char), isWordChar c = false → isPunctChar c = true →
      tokenize (c :: s) = [c] :: tokenize s) ∧
    (∀ (c : Char) (s : List Char), isWordChar c = false → isPunctChar c = false →
      tokenize (c :: s) = tokenize s) :=
  ⟨by decide, tokenize_nil,
   fun _ s hc => tokenize_word_head hc s,
   fun _ s hw hp => tokenize_punct_head hw hp s,
   fun _ s hw hp => tokenize_other_head hw hp s⟩

/-- Witness for C6: the general clauses applied at concrete inputs. -/
theorem claim_C6_tokenize_witness :
    tokenize ('a' :: " b".toList) =
      ('a' :: " b".toList.takeWhile isWordChar) :: tokenize (" b".toList.dropWhile isWordChar) ∧
    tokenize ('!' :: "x".toList) = [['!']] ++ tokenize "x".toList ∧
    tokenize (',' :: "x".toList) = tokenize "x".toList :=
  ⟨claim_C6_tokenize.2.2.1 'a' " b".toList (by decide),
   claim_C6_tokenize.2.2.2.1 '!' "x".toList (by decide) (by decide),
   claim_C6_tokenize.2.2.2.2 ',' "x".toList (by decide) (by decide)⟩

/-- C9: `add_text` on a text whose token sequence is no longer than the
order is a no-op: the model (transition table and start states included) is
returned unchanged. -/
theorem claim_C9_short_text_noop (mc : MarkovChain) (text : List Char)
    (h : (tokenize text).length ≤ mc.order) : addText mc text = mc := by
  simp only [addText]
  rw [if_pos h]

/-- Witness for C9: `ingest("")` and `ingest("a")` at order 2 leave the
model unchanged. -/
theorem claim_C9_short_text_noop_witness :
    ((tokenize "".toList).length ≤ 2 ∧
      addText { order := 2, transitions := [], starts := [] } "".toList =
        { order := 2, transitions := [], starts := [] }) ∧
    ((tokenize "a".toList).length ≤ 2 ∧
      addText { order := 2, transitions := [], starts := [] } "a".toList =
        { order := 2, transitions := [], starts := [] }) :=
  ⟨⟨by decide, claim_C9_short_text_noop _ _ (by decide)⟩,
   ⟨by decide, claim_C9_short_text_noop _ _ (by decide)⟩⟩

/-- C7: generation output is a function of the model, the requested length
and the values delivered by the injected random stream alone — two streams
that agree pointwise give identical output (there is no hidden global
randomness in the embedding of `generate_words`). -/
theorem claim_C7_determinism (mc : MarkovChain) (n fuel : Nat)
    (rng1 rng2 : Nat → Nat) (h : ∀ i, rng1 i = rng2 i) :
    generateWords mc n rng1 fuel = generateWords mc n rng2 fuel := by
  rw [funext h]

/-- Witness for C7: two syntactically different but pointwise-equal streams
generate the same words on a concrete model. -/
theorem claim_C7_determinism_witness :
    (∀ i : Nat, (fun _ => 0) i = (fun j => 0 * j) i) ∧
    generateWords divergentModel 1 (fun _ => 0) 10 =
      generateWords divergentModel 1 (fun j => 0 * j) 10 :=
  ⟨fun i => by simp, claim_C7_determinism _ 1 10 _ _ (fun i => by simp)⟩

/-! ## Weighted-sampling lemmas -/

lemma walkDist_shift (d : MCDist) (r cum k : Nat) :
    walkDist d (r + k) (cum + k) = walkDist d r cum := by
  induction d generalizing cum with
  | nil => rfl
  | cons p rest ih =>
    rw [walkDist, walkDist]
    by_cases h : r < cum + p.2
    · rw [if_pos (by omega), if_pos h]
    · rw [if_neg (by omega), if_neg h]
      have : cum + k + p.2 = cum + p.2 + k := by omega
      rw [this, ih]

lemma walkDist_head_lt {p : Token × Nat} {rest : MCDist} {r : Nat} (h : r < p.2) :
    walkDist (p :: rest) r 0 = some p.1 := by
  rw [walkDist, if_pos (by omega)]

lemma walkDist_head_ge {p : Token × Nat} {rest : MCDist} {r : Nat} (h : p.2 ≤ r) :
    walkDist (p :: rest) r 0 = walkDist rest (r - p.2) 0 := by
  rw [walkDist, if_neg (by omega)]
  have hr : r = (r - p.2) + p.2 := by omega
  calc walkDist rest r (0 + p.2)
      = walkDist rest ((r - p.2) + p.2) (0 + p.2) := by rw [← hr]
    _ = walkDist rest (r - p.2) 0 := walkDist_shift rest (r - p.2) 0 p.2

lemma walkDist_countP (d : MCDist) (t : Token) (hnd : (d.map Prod.fst).Nodup) :
    (List.range (distTotal d)).countP (fun r => walkDist d r 0 == some t) =
      (dictGet d t).getD 0 := by
  induction d with
  | nil => simp [distTotal, dictGet]
  | cons p rest ih =>
    simp only [List.map_cons, List.nodup_cons] at hnd
    have htot : distTotal (p :: rest) = p.2 + distTotal rest := by
      simp [distTotal]
    rw [htot, List.range_add, List.countP_append, List.countP_map]
    have hfirst : (List.range p.2).countP (fun r => walkDist (p :: rest) r 0 == some t) =
        if p.1 = t then p.2 else 0 := by
      by_cases hpt : p.1 = t
      · rw [if_pos hpt]
        have : ∀ r ∈ List.range p.2,
            (fun r => walkDist (p :: rest) r 0 == some t) r = true := by
          intro r hr
          rw [List.mem_range] at hr
          simp [walkDist_head_lt hr, hpt]
        rw [List.countP_eq_length.mpr this, List.length_range]
      · rw [if_neg hpt]
        apply List.countP_eq_zero.mpr
        intro r hr
        rw [List.mem_range] at hr
        simp [walkDist_head_lt hr, hpt]
    have hsecond : (List.range (distTotal rest)).countP
        ((fun r => walkDist (p :: rest) r 0 == some t) ∘ (fun x => p.2 + x)) =
        (dictGet rest t).getD 0 := by
      have hcong : ∀ r ∈ List.range (distTotal rest),
          ((fun r => walkDist (p :: rest) r 0 == some t) ∘ (fun x => p.2 + x)) r =
          (fun r => walkDist rest r 0 == some t) r := by
        intro r _
        simp only [Function.comp_apply]
        rw [walkDist_head_ge (by omega)]
        congr 2
        omega
      rw [List.countP_congr (fun x hx => by rw [hcong x hx]), ih hnd.2]
    rw [hfirst, hsecond, dictGet]
    by_cases hpt : p.1 = t
    · rw [if_pos hpt, if_pos hpt]
      have hnone : dictGet rest t = none := by
        apply dictGet_eq_none
        rw [← hpt]
        exact hnd.1
      simp [hnone]
    · rw [if_neg hpt, if_neg hpt, Nat.zero_add]

lemma walkDist_mem : ∀ (d : MCDist) (r cum : Nat), cum ≤ r → r < cum + distTotal d →
    ∃ p ∈ d, walkDist d r cum = some p.1 := by
  intro d
  induction d with
  | nil => intro r cum hc hr; simp [distTotal] at hr; omega
  | cons p rest ih =>
    intro r cum hc hr
    by_cases h : r < cum + p.2
    · exact ⟨p, List.mem_cons_self p rest, by rw [walkDist, if_pos h]⟩
    · have htot2 : distTotal (p :: rest) = p.2 + distTotal rest := by
        simp [distTotal]
      rw [htot2] at hr
      have hr2 : r < (cum + p.2) + distTotal rest := by omega
      obtain ⟨q, hq, hqe⟩ := ih r (cum + p.2) (by omega) hr2
      exact ⟨q, List.mem_cons_of_mem p hq, by rw [walkDist, if_neg h]; exact hqe⟩

/-- C5: frequency-weighted sampling. If the distribution stored for state
`s` maps token `t` to count `c`, then among the `total` possible uniform
draws `r` exactly `c` make the accumulate-and-walk return `t`; every draw
below the total returns some token of the distribution; and
`_next_weighted` maps the drawn value `r` to exactly that walk result
(consuming one random value). -/
theorem claim_C5_weighted_sampling (mc : MarkovChain) (s : MCState) (dist : MCDist)
    (t : Token) (c : Nat) (hdist : dictGet mc.transitions s = some dist)
    (hnd : (dist.map Prod.fst).Nodup) (hget : dictGet dist t = some c) :
    (List.range (distTotal dist)).countP (fun r => walkDist dist r 0 == some t) = c ∧
    (∀ r, r < distTotal dist → ∃ p ∈ dist, walkDist dist r 0 = some p.1) ∧
    (∀ r, r < distTotal dist → ∀ pos : Nat,
      nextWeighted mc s (fun _ => r) pos = some (walkDist dist r 0, pos + 1)) := by
  refine ⟨?_, ?_, ?_⟩
  · rw [walkDist_countP dist t hnd, hget]
    rfl
  · intro r hr
    exact walkDist_mem dist r 0 (Nat.zero_le r) (by omega)
  · intro r hr pos
    have hne : dist.isEmpty = false := by
      cases dist with
      | nil => simp [dictGet] at hget
      | cons q rest => rfl
    have htot : ¬ distTotal dist = 0 := by omega
    rw [nextWeighted, hdist]
    simp only [hne, Bool.false_eq_true, if_false, htot, if_false]
    rw [Nat.mod_eq_of_lt hr]

/-- Witness for C5: on the `A:3 / B:1` distribution, exactly 3 of the 4
possible draws yield `A`. -/
theorem claim_C5_weighted_sampling_witness :
    dictGet sampleModel.transitions [['s']] = some [(['A'], 3), (['B'], 1)] ∧
    ((List.range (distTotal [(['A'], 3), (['B'], 1)])).countP
        (fun r => walkDist [(['A'], 3), (['B'], 1)] r 0 == some ['A']) = 3 ∧
      (∀ r, r < distTotal [(['A'], 3), (['B'], 1)] →
        ∃ p ∈ [(['A'], 3), (['B'], 1)], walkDist [(['A'], 3), (['B'], 1)] r 0 = some p.1) ∧
      (∀ r, r < distTotal [(['A'], 3), (['B'], 1)] → ∀ pos : Nat,
        nextWeighted sampleModel [['s']] (fun _ => r) pos =
          some (walkDist [(['A'], 3), (['B'], 1)] r 0, pos + 1))) :=
  ⟨by decide,
   claim_C5_weighted_sampling sampleModel [['s']] [(['A'], 3), (['B'], 1)] ['A'] 3
     (by decide) (by decide) (by decide)⟩

/-! ## Generation-loop lemmas -/

lemma generateLoop_alphaCount_ge {mc : MarkovChain} {n : Nat} {rng : Nat → Nat} :
    ∀ {fuel pos : Nat} {out res : List Token},
      generateLoop mc n rng fuel pos out = some res → n ≤ alphaCount res := by
  intro fuel
  induction fuel with
  | zero =>
    intro pos out res h
    exact absurd h (by rw [generateLoop]; simp)
  | succ fuel ih =>
    intro pos out res h
    rw [generateLoop] at h
    split at h
    · split at h
      · exact absurd h (by simp)
      · exact ih h
      · split at h
        · exact absurd h (by simp)
        · exact ih h
    · next hge =>
      cases Option.some.inj h
      omega

lemma isPunctTok_alphaMatch_false {t : Token} (h : isPunctTok t = true) :
    alphaMatch t = false := by
  simp only [isPunctTok, Bool.or_eq_true, beq_iff_eq] at h
  rcases h with (h | h) | h <;> subst h <;> decide

lemma alphaMatch_isPunctTok_false {t : Token} (h : alphaMatch t = true) :
    isPunctTok t = false := by
  cases hpt : isPunctTok t
  · rfl
  · rw [isPunctTok_alphaMatch_false hpt] at h
    exact absurd h (by simp)

/-- C2 (amended): whenever `generate_words(n, rng)` returns — the loop is
not guaranteed to terminate, see the counterexample — the result on a model
with start states is exactly `n` tokens, all matching the word pattern and
none a punctuation token; on a model without start states the result is
empty. -/
theorem claim_C2_length_contract (mc : MarkovChain) (n : Nat) (rng : Nat → Nat)
    (fuel : Nat) (ws : List Token) (h : generateWords mc n rng fuel = some ws) :
    (mc.starts = [] → ws = []) ∧
    (mc.starts ≠ [] → ws.length = n ∧
      ∀ t ∈ ws, alphaMatch t = true ∧ isPunctTok t = false) := by
  rw [generateWords] at h
  by_cases hse : mc.starts.isEmpty
  · rw [if_pos hse] at h
    cases Option.some.inj h
    constructor
    · intro _; rfl
    · intro hne
      exact absurd (List.isEmpty_iff.mp hse) hne
  · rw [if_neg hse] at h
    rcases hloop : generateLoop mc n rng fuel 1
        (mc.starts.getD (rng 0 % mc.starts.length) []) with _ | out
    · rw [hloop] at h
      exact absurd h (by simp)
    · rw [hloop] at h
      cases Option.some.inj h
      constructor
      · intro he
        exact absurd he (fun he2 => hse (by rw [he2]; rfl))
      · intro _
        have hge : n ≤ alphaCount out := generateLoop_alphaCount_ge hloop
        have hflen : n ≤ (out.filter alphaMatch).length := by
          rw [← List.countP_eq_length_filter]
          exact hge
        refine ⟨by rw [List.length_take]; omega, ?_⟩
        intro t ht
        have htf : t ∈ out.filter alphaMatch := List.mem_of_mem_take ht
        have hmatch : alphaMatch t = true := (List.mem_filter.mp htf).2
        exact ⟨hmatch, alphaMatch_isPunctTok_false hmatch⟩

lemma takeLast_one_append (l : List Token) (x : Token) :
    takeLast 1 (l ++ [x]) = [x] := by
  rw [takeLast, if_neg (by omega)]
  have h1 : (l ++ [x]).length - 1 = l.length := by simp
  rw [h1, List.drop_left]

lemma alphaCount_append_punct (out : List Token) :
    alphaCount (out ++ [['.']]) = alphaCount out := by
  simp [alphaCount, List.countP_append]
  decide

/-- On `divergentModel` with `n_words = 2` the generation loop never
terminates: every reachable buffer has exactly one word token and ends in
`'a'` or `'.'`, and both states always emit another period. -/
lemma divergentModel_loop_none :
    ∀ (fuel pos : Nat) (out : List Token), alphaCount out = 1 →
      (takeLast 1 out = [['a']] ∨ takeLast 1 out = [['.']]) →
      generateLoop divergentModel 2 (fun _ => 0) fuel pos out = none := by
  intro fuel
  induction fuel with
  | zero => intro pos out _ _; rw [generateLoop]
  | succ fuel ih =>
    intro pos out h1 h2
    rw [generateLoop, if_pos (by omega)]
    have horder : divergentModel.order = 1 := rfl
    rcases h2 with h2 | h2
    · have hnw : nextWeighted divergentModel (takeLast divergentModel.order out)
          (fun _ => 0) pos = some (some ['.'], pos + 1) := by
        rw [horder, h2]; rfl
      rw [hnw]
      exact ih (pos + 1) (out ++ [['.']]) (by rw [alphaCount_append_punct, h1])
        (Or.inr (takeLast_one_append out ['.']))
    · have hnw : nextWeighted divergentModel (takeLast divergentModel.order out)
          (fun _ => 0) pos = some (some ['.'], pos + 1) := by
        rw [horder, h2]; rfl
      rw [hnw]
      exact ih (pos + 1) (out ++ [['.']]) (by rw [alphaCount_append_punct, h1])
        (Or.inr (takeLast_one_append out ['.']))

/-- Counterexample to C2 as stated: `divergentModel` is a trained model
(built from `"a . . . ."` at order 1) with non-empty start states on which
`generate_words(2, rng)` never returns, for any amount of fuel. -/
theorem claim_C2_counterexample :
    buildModel 1 ["a . . . .".toList] = some divergentModel ∧
    divergentModel.starts ≠ [] ∧
    ¬ ∃ (fuel : Nat) (ws : List Token),
        generateWords divergentModel 2 (fun _ => 0) fuel = some ws := by
  refine ⟨by decide, by decide, ?_⟩
  rintro ⟨fuel, ws, hws⟩
  rw [generateWords, if_neg (by decide)] at hws
  have hstart : divergentModel.starts.getD
      ((fun _ : Nat => 0) 0 % divergentModel.starts.length) [] = [['a']] := rfl
  rw [hstart, divergentModel_loop_none fuel 1 [['a']] (by decide) (Or.inl (by decide))] at hws
  exact absurd hws (by simp)

/-- Witness for C2: a terminating run returning exactly one word token. -/
theorem claim_C2_length_contract_witness :
    generateWords divergentModel 1 (fun _ => 0) 10 = some [['a']] ∧
    ((divergentModel.starts = [] → ([['a']] : List Token) = []) ∧
      (divergentModel.starts ≠ [] → ([['a']] : List Token).length = 1 ∧
        ∀ t ∈ ([['a']] : List Token), alphaMatch t = true ∧ isPunctTok t = false)) :=
  ⟨by decide, claim_C2_length_contract divergentModel 1 (fun _ => 0) 10 [['a']] (by decide)⟩

/-- C8: at a dead end (the last `order` tokens have no entry in the
transition table) with start states available, the loop neither errors nor
emits a token: it appends a randomly chosen start state — a member of the
start-state collection, all of its tokens at once — and continues. -/
theorem claim_C8_dead_end_fallback (mc : MarkovChain) (n : Nat) (rng : Nat → Nat)
    (fuel pos : Nat) (out : List Token)
    (hlt : alphaCount out < n)
    (hdead : dictGet mc.transitions (takeLast mc.order out) = none)
    (hne : mc.starts ≠ []) :
    generateLoop mc n rng (fuel + 1) pos out =
      generateLoop mc n rng fuel (pos + 1)
        (out ++ mc.starts.getD (rng pos % mc.starts.length) []) ∧
    mc.starts.getD (rng pos % mc.starts.length) [] ∈ mc.starts := by
  constructor
  · rw [generateLoop, if_pos hlt]
    have hnw : nextWeighted mc (takeLast mc.order out) rng pos = some (none, pos) := by
      rw [nextWeighted, hdead]
    rw [hnw]
    have hif : mc.starts.isEmpty = false := by
      cases hs : mc.starts.isEmpty
      · rfl
      · exact absurd (List.isEmpty_iff.mp hs) hne
    simp [hif]
  · have hidx : rng pos % mc.starts.length < mc.starts.length :=
      Nat.mod_lt _ (List.length_pos.mpr hne)
    rw [List.getD_eq_getElem _ _ hidx]
    exact List.getElem_mem hidx

/-- Witness for C8: a dead-end buffer on `divergentModel` restarts from the
first start state. -/
theorem claim_C8_dead_end_fallback_witness :
    (alphaCount [[ 'z' ]] < 2 ∧
      dictGet divergentModel.transitions (takeLast divergentModel.order [[ 'z' ]]) = none ∧
      divergentModel.starts ≠ []) ∧
    (generateLoop divergentModel 2 (fun _ => 0) (5 + 1) 0 [[ 'z' ]] =
      generateLoop divergentModel 2 (fun _ => 0) 5 (0 + 1)
        ([[ 'z' ]] ++ divergentModel.starts.getD
          ((fun _ : Nat => 0) 0 % divergentModel.starts.length) []) ∧
    divergentModel.starts.getD
        ((fun _ : Nat => 0) 0 % divergentModel.starts.length) [] ∈ divergentModel.starts) :=
  ⟨⟨by decide, by decide, by decide⟩,
   claim_C8_dead_end_fallback divergentModel 2 (fun _ => 0) 5 0 [[ 'z' ]]
     (by decide) (by decide) (by decide)⟩

/-! ## Token-shape and training invariants -/

lemma flushRun_mem {run : List Char} {t : List Char} (ht : t ∈ flushRun run) :
    t = run.reverse ∧ run ≠ [] := by
  rw [flushRun] at ht
  split at ht
  · exact absurd ht (by simp)
  · next hne =>
    refine ⟨by simpa using ht, ?_⟩
    intro habs
    rw [habs] at hne
    exact hne rfl

lemma tokenizeGo_shape :
    ∀ (s run : List Char), run.all isWordChar = true →
      ∀ t ∈ tokenizeGo s run,
        (t ≠ [] ∧ t.all isWordChar = true) ∨ ∃ c, isPunctChar c = true ∧ t = [c] := by
  intro s
  induction s with
  | nil =>
    intro run hrun t ht
    obtain ⟨rfl, hne⟩ := flushRun_mem ht
    exact Or.inl ⟨by simpa using hne, by simpa using hrun⟩
  | cons c rest ih =>
    intro run hrun t ht
    rw [tokenizeGo] at ht
    by_cases hw : isWordChar c
    · rw [if_pos hw] at ht
      exact ih (c :: run) (by simp [hw, hrun]) t ht
    · rw [if_neg hw] at ht
      by_cases hp : isPunctChar c
      · rw [if_pos hp] at ht
        rcases List.mem_append.mp ht with hf | hrest
        · obtain ⟨rfl, hne⟩ := flushRun_mem hf
          exact Or.inl ⟨by simpa using hne, by simpa using hrun⟩
        · rcases List.mem_cons.mp hrest with rfl | hrest2
          · exact Or.inr ⟨c, hp, rfl⟩
          · exact ih [] rfl t hrest2
      · rw [if_neg hp] at ht
        rcases List.mem_append.mp ht with hf | hrest
        · obtain ⟨rfl, hne⟩ := flushRun_mem hf
          exact Or.inl ⟨by simpa using hne, by simpa using hrun⟩
        · exact ih [] rfl t hrest

lemma tokenize_shape {s : List Char} {t : Token} (ht : t ∈ tokenize s) :
    (t ≠ [] ∧ t.all isWordChar = true) ∨ ∃ c, isPunctChar c = true ∧ t = [c] :=
  tokenizeGo_shape s [] rfl t ht

lemma tokenize_pipeFree {s : List Char} {t : Token} (ht : t ∈ tokenize s) :
    pipeFreeTok t := by
  intro c hc
  rcases tokenize_shape ht with ⟨_, hall⟩ | ⟨c2, hp, rfl⟩
  · have hcw : isWordChar c = true := by
      rw [List.all_eq_true] at hall
      exact hall c hc
    intro habs
    rw [habs] at hcw
    exact absurd hcw (by decide)
  · have hc2 : c = c2 := by simpa using hc
    subst hc2
    intro habs
    rw [habs] at hp
    exact absurd hp (by decide)

lemma tokenize_nonempty {s : List Char} {t : Token} (ht : t ∈ tokenize s) : t ≠ [] := by
  rcases tokenize_shape ht with ⟨hne, _⟩ | ⟨c2, _, rfl⟩
  · exact hne
  · simp

lemma window_goodState {tokens : List Token} {text : List Char} {k i : Nat}
    (htok : tokens = tokenize text) (hik : i + k ≤ tokens.length) :
    goodState k ((tokens.drop i).take k) := by
  constructor
  · rw [List.length_take, List.length_drop]
    omega
  · intro t ht
    have htm : t ∈ tokens := List.mem_of_mem_drop (List.mem_of_mem_take ht)
    rw [htok] at htm
    exact tokenize_pipeFree htm

lemma distIncr_props {d : MCDist} {t : Token} (hd : ∀ q ∈ d, 1 ≤ q.2) :
    distIncr d t ≠ [] ∧ ∀ q ∈ distIncr d t, 1 ≤ q.2 := by
  constructor
  · rw [distIncr, dictInsert]
    split
    · next hany =>
      intro habs
      rw [List.map_eq_nil_iff] at habs
      rw [habs] at hany
      exact absurd hany (by simp)
    · simp
  · intro q hq
    rcases mem_dictInsert hq with hqd | rfl
    · exact hd q hqd
    · simp

lemma transIncr_inv {k : Nat} {tr : MCTrans} {s : MCState} {t : Token}
    (hnd : (tr.map Prod.fst).Nodup)
    (hent : ∀ p ∈ tr, goodState k p.1 ∧ p.2 ≠ [] ∧ ∀ q ∈ p.2, 1 ≤ q.2)
    (hs : goodState k s) :
    ((transIncr tr s t).map Prod.fst).Nodup ∧
    ∀ p ∈ transIncr tr s t, goodState k p.1 ∧ p.2 ≠ [] ∧ ∀ q ∈ p.2, 1 ≤ q.2 := by
  have hd : ∀ q ∈ (dictGet tr s).getD [], 1 ≤ q.2 := by
    rcases hget : dictGet tr s with _ | d0
    · simp
    · have := (hent _ (dictGet_mem hget)).2.2
      simpa using this
  refine ⟨dictInsert_keys_nodup hnd, ?_⟩
  intro p hp
  rcases mem_dictInsert hp with hpd | rfl
  · exact hent p hpd
  · obtain ⟨hne, hpos⟩ := distIncr_props hd
    exact ⟨hs, hne, hpos⟩

lemma foldl_inv {α β : Type} {P : α → Prop} {f : α → β → α} :
    ∀ (l : List β), (∀ a, ∀ b ∈ l, P a → P (f a b)) → ∀ a, P a → P (l.foldl f a) := by
  intro l
  induction l with
  | nil => intro _ a ha; exact ha
  | cons b rest ih =>
    intro hf a ha
    rw [List.foldl_cons]
    exact ih (fun a' b' hb' ha' => hf a' b' (List.mem_cons_of_mem b hb') ha')
      (f a b) (hf a b (List.mem_cons_self b rest) ha)

lemma addText_order (mc : MarkovChain) (text : List Char) :
    (addText mc text).order = mc.order := by
  rw [addText]
  split <;> rfl

lemma addText_modelInv {mc : MarkovChain} (h : modelInv mc) (text : List Char) :
    modelInv (addText mc text) := by
  obtain ⟨hnd, hent, hstarts⟩ := h
  rw [addText]
  split
  · exact ⟨hnd, hent, hstarts⟩
  · next hlen =>
    have hfold :
        (((List.range ((tokenize text).length - mc.order)).foldl
          (fun tr i => transIncr tr (((tokenize text).drop i).take mc.order)
            ((tokenize text).getD (i + mc.order) [])) mc.transitions).map Prod.fst).Nodup ∧
        ∀ p ∈ (List.range ((tokenize text).length - mc.order)).foldl
            (fun tr i => transIncr tr (((tokenize text).drop i).take mc.order)
              ((tokenize text).getD (i + mc.order) [])) mc.transitions,
          goodState mc.order p.1 ∧ p.2 ≠ [] ∧ ∀ q ∈ p.2, 1 ≤ q.2 := by
      refine foldl_inv (P := fun tr : MCTrans => (tr.map Prod.fst).Nodup ∧
          ∀ p ∈ tr, goodState mc.order p.1 ∧ p.2 ≠ [] ∧ ∀ q ∈ p.2, 1 ≤ q.2)
        (List.range ((tokenize text).length - mc.order)) ?_ mc.transitions ⟨hnd, hent⟩
      intro tr i hi htr
      rw [List.mem_range] at hi
      exact transIncr_inv htr.1 htr.2 (window_goodState rfl (by omega))
    refine ⟨hfold.1, hfold.2, ?_⟩
    intro s hs
    rcases List.mem_append.mp hs with hold | hnew
    · exact hstarts s hold
    · obtain ⟨i, hi, rfl⟩ := List.mem_map.mp hnew
      have hik : i + mc.order ≤ (tokenize text).length := by
        have := (List.mem_filter.mp hi).2
        simp only [decide_eq_true_eq] at this
        omega
      exact window_goodState rfl hik

lemma buildModel_modelInv {k : Int} {texts : List (List Char)} {m : MarkovChain}
    (h : buildModel k texts = some m) : modelInv m := by
  rw [buildModel] at h
  rcases hmk : MarkovChain.make k with _ | m0
  · rw [hmk] at h; exact absurd h (by simp)
  · rw [hmk] at h
    simp only [Option.map_some'] at h
    cases Option.some.inj h
    have hm0 : modelInv m0 := by
      rw [MarkovChain.make] at hmk
      split at hmk
      · exact absurd hmk (by simp)
      · cases Option.some.inj hmk
        exact ⟨by simp, by simp, by simp⟩
    exact foldl_inv (P := modelInv) texts (fun a b _ ha => addText_modelInv ha b) m0 hm0

lemma buildModel_order_pos {k : Int} {texts : List (List Char)} {m : MarkovChain}
    (h : buildModel k texts = some m) : 1 ≤ m.order := by
  rw [buildModel] at h
  rcases hmk : MarkovChain.make k with _ | m0
  · rw [hmk] at h; exact absurd h (by simp)
  · rw [hmk] at h
    simp only [Option.map_some'] at h
    cases Option.some.inj h
    have hord : ∀ (ts : List (List Char)) (a : MarkovChain),
        (ts.foldl addText a).order = a.order := by
      intro ts
      induction ts with
      | nil => intro a; rfl
      | cons b rest ih =>
        intro a
        rw [List.foldl_cons, ih, addText_order]
    rw [hord]
    rw [MarkovChain.make] at hmk
    split at hmk
    · exact absurd hmk (by simp)
    · next hk =>
      cases Option.some.inj hmk
      simp only []
      omega

/-- C4: in every model built by the constructor and `add_text` calls, every
transition-table key and every start state is a tuple of exactly `order`
tokens. -/
theorem claim_C4_order_invariant (k : Int) (texts : List (List Char)) (m : MarkovChain)
    (h : buildModel k texts = some m) :
    (∀ p ∈ m.transitions, p.1.length = m.order) ∧
    (∀ s ∈ m.starts, s.length = m.order) := by
  obtain ⟨_, hent, hstarts⟩ := buildModel_modelInv h
  exact ⟨fun p hp => (hent p hp).1.1, fun s hs => (hstarts s hs).1⟩

/-- Witness for C4: the order-1 model trained on `"a . . . ."`. -/
theorem claim_C4_order_invariant_witness :
    buildModel 1 ["a . . . .".toList] = some divergentModel ∧
    ((∀ p ∈ divergentModel.transitions, p.1.length = divergentModel.order) ∧
      (∀ s ∈ divergentModel.starts, s.length = divergentModel.order)) :=
  ⟨by decide, claim_C4_order_invariant 1 ["a . . . .".toList] divergentModel (by decide)⟩

/-- C10: a trained model's transition table has no entry with an empty
successor distribution: every present key maps to at least one successor,
and every recorded count is at least 1. -/
theorem claim_C10_no_empty_dist (k : Int) (texts : List (List Char)) (m : MarkovChain)
    (h : buildModel k texts = some m) :
    ∀ p ∈ m.transitions, p.2 ≠ [] ∧ (∃ q ∈ p.2, 1 ≤ q.2) ∧ ∀ q ∈ p.2, 1 ≤ q.2 := by
  obtain ⟨_, hent, _⟩ := buildModel_modelInv h
  intro p hp
  obtain ⟨_, hne, hpos⟩ := hent p hp
  obtain ⟨q, hq⟩ := List.exists_mem_of_ne_nil _ hne
  exact ⟨hne, ⟨q, hq, hpos q hq⟩, hpos⟩

/-- Witness for C10: the distributions of the `"a . . . ."` model are
non-empty with positive counts. -/
theorem claim_C10_no_empty_dist_witness :
    buildModel 1 ["a . . . .".toList] = some divergentModel ∧
    ∀ p ∈ divergentModel.transitions,
      p.2 ≠ [] ∧ (∃ q ∈ p.2, 1 ≤ q.2) ∧ ∀ q ∈ p.2, 1 ≤ q.2 :=
  ⟨by decide, claim_C10_no_empty_dist 1 ["a . . . .".toList] divergentModel (by decide)⟩

/-! ## Serialization lemmas -/

lemma splitPipesGo_cons {c : Char} (hc : c ≠ '|') :
    ∀ (s acc : List Char), splitPipesGo (c :: s) acc = splitPipesGo s (c :: acc) := by
  intro s acc
  rcases s with _ | ⟨c2, s2⟩
  · rfl
  · rcases s2 with _ | ⟨c3, s3⟩
    · rfl
    · rw [splitPipesGo]
      rw [if_neg]
      intro habs
      simp only [Bool.and_eq_true, beq_iff_eq] at habs
      exact hc habs.1.1

lemma splitPipesGo_token (t : List Char) (ht : pipeFreeTok t) :
    ∀ (s acc : List Char), splitPipesGo (t ++ s) acc = splitPipesGo s (t.reverse ++ acc) := by
  induction t with
  | nil => intro s acc; simp
  | cons c t ih =>
    intro s acc
    have hc : c ≠ '|' := ht c (List.mem_cons_self c t)
    rw [List.cons_append, splitPipesGo_cons hc,
      ih (fun x hx => ht x (List.mem_cons_of_mem c hx)) s (c :: acc)]
    simp

lemma splitPipesGo_triple (r acc : List Char) :
    splitPipesGo ('|' :: '|' :: '|' :: r) acc = acc.reverse :: splitPipesGo r [] := by
  rw [splitPipesGo]
  simp

lemma splitPipes_joinPipes : ∀ (ss : MCState), ss ≠ [] → (∀ t ∈ ss, pipeFreeTok t) →
    splitPipes (joinPipes ss) = ss := by
  intro ss
  induction ss with
  | nil => intro h _; exact absurd rfl h
  | cons t ts ih =>
    intro _ hpf
    rcases ts with _ | ⟨t2, ts2⟩
    · show splitPipesGo (joinPipes [t]) [] = [t]
      have hj : joinPipes [t] = t := rfl
      rw [hj]
      calc splitPipesGo t []
          = splitPipesGo (t ++ []) [] := by rw [List.append_nil]
        _ = splitPipesGo [] (t.reverse ++ []) :=
            splitPipesGo_token t (hpf t (List.mem_cons_self t [])) [] []
        _ = [t] := by simp [splitPipesGo]
    · show splitPipesGo (joinPipes (t :: t2 :: ts2)) [] = t :: t2 :: ts2
      have hj : joinPipes (t :: t2 :: ts2) =
          t ++ '|' :: '|' :: '|' :: joinPipes (t2 :: ts2) := rfl
      rw [hj]
      calc splitPipesGo (t ++ '|' :: '|' :: '|' :: joinPipes (t2 :: ts2)) []
          = splitPipesGo ('|' :: '|' :: '|' :: joinPipes (t2 :: ts2)) (t.reverse ++ []) :=
            splitPipesGo_token t (hpf t (List.mem_cons_self t (t2 :: ts2))) _ []
        _ = (t.reverse ++ []).reverse :: splitPipesGo (joinPipes (t2 :: ts2)) [] :=
            splitPipesGo_triple _ _
        _ = t :: splitPipes (joinPipes (t2 :: ts2)) := by simp [splitPipes]
        _ = t :: t2 :: ts2 := by
            rw [ih (by simp) (fun x hx => hpf x (List.mem_cons_of_mem t hx))]

lemma foldl_dictInsert_map {α β γ : Type} [DecidableEq γ] (l : List (α × β)) (f : α → γ)
    (hnd : ((l.map (fun p => (f p.1, p.2))).map Prod.fst).Nodup) :
    l.foldl (fun acc p => dictInsert acc (f p.1) p.2) [] = l.map (fun p => (f p.1, p.2)) := by
  have h1 : l.foldl (fun acc p => dictInsert acc (f p.1) p.2) [] =
      (l.map (fun p => (f p.1, p.2))).foldl (fun acc p => dictInsert acc p.1 p.2) [] := by
    rw [List.foldl_map]
  rw [h1]
  have h2 := foldl_dictInsert_eq_append (l.map (fun p => (f p.1, p.2))) [] (by simpa using hnd)
  simpa using h2

/-- C1: the pure core of `load(save(m))` — `from_dict(to_dict(m))` — on any
trained model succeeds and reproduces the `order` exactly and the start
states and (state, successor, count) triples as multisets (in fact the
reconstruction is literally equal). -/
theorem claim_C1_roundtrip (k : Int) (texts : List (List Char)) (m : MarkovChain)
    (h : buildModel k texts = some m) :
    ∃ m2, fromDict (toDict m) = some m2 ∧ m2.order = m.order ∧
      m2.starts.Perm m.starts ∧ (transTriples m2).Perm (transTriples m) := by
  obtain ⟨hnd, hent, hstarts⟩ := buildModel_modelInv h
  have hord := buildModel_order_pos h
  have hret : ∀ s : MCState, goodState m.order s → splitPipes (joinPipes s) = s := by
    intro s hs
    apply splitPipes_joinPipes
    · intro habs
      rw [habs] at hs
      have hl := hs.1
      simp at hl
      omega
    · exact hs.2
  have hstarts_eq : (m.starts.map joinPipes).map splitPipes = m.starts := by
    rw [List.map_map]
    have hc : ∀ s ∈ m.starts, (splitPipes ∘ joinPipes) s = id s := by
      intro s hs
      exact hret s (hstarts s hs)
    rw [List.map_congr_left hc, List.map_id]
  have hkeys : ((m.transitions.map (fun p => (joinPipes p.1, p.2))).map Prod.fst).Nodup := by
    rw [List.map_map]
    have he : (Prod.fst ∘ fun p : MCState × MCDist => (joinPipes p.1, p.2)) =
        (joinPipes ∘ Prod.fst) := rfl
    rw [he, ← List.map_map]
    apply List.Nodup.map_on ?_ hnd
    intro x hx y hy hxy
    obtain ⟨px, hpx, rfl⟩ := List.mem_map.mp hx
    obtain ⟨py, hpy, rfl⟩ := List.mem_map.mp hy
    have h1 := hret px.1 (hent px hpx).1
    have h2 := hret py.1 (hent py hpy).1
    rw [← h1, ← h2, hxy]
  have htrans_ser : m.transitions.foldl
      (fun acc p => dictInsert acc (joinPipes p.1) p.2) [] =
      m.transitions.map (fun p => (joinPipes p.1, p.2)) :=
    foldl_dictInsert_map m.transitions joinPipes hkeys
  have htrans_eq : (m.transitions.map (fun p => (joinPipes p.1, p.2))).foldl
      (fun acc p => dictInsert acc (splitPipes p.1) p.2) [] = m.transitions := by
    rw [foldl_dictInsert_map (m.transitions.map (fun p => (joinPipes p.1, p.2))) splitPipes ?_]
    · rw [List.map_map]
      have hc : ∀ p ∈ m.transitions,
          ((fun q : List Char × MCDist => (splitPipes q.1, q.2)) ∘
            fun p : MCState × MCDist => (joinPipes p.1, p.2)) p = id p := by
        intro p hp
        simp only [Function.comp_apply, id_eq]
        rw [hret p.1 (hent p hp).1]
      rw [List.map_congr_left hc, List.map_id]
    · rw [List.map_map, List.map_map]
      have hfused : List.map ((Prod.fst ∘ fun q : List Char × MCDist => (splitPipes q.1, q.2)) ∘
          fun p : MCState × MCDist => (joinPipes p.1, p.2)) m.transitions =
          List.map Prod.fst m.transitions := by
        apply List.map_congr_left
        intro p hp
        simp only [Function.comp_apply]
        exact hret p.1 (hent p hp).1
      rw [hfused]
      exact hnd
  refine ⟨m, ?_, rfl, List.Perm.refl _, List.Perm.refl _⟩
  simp only [fromDict, toDict, Option.getD_some]
  rw [if_neg (by omega)]
  rw [htrans_ser, htrans_eq, hstarts_eq]
  simp

/-- Witness for C1: the round trip on the concrete trained model. -/
theorem claim_C1_roundtrip_witness :
    buildModel 1 ["a . . . .".toList] = some divergentModel ∧
    ∃ m2, fromDict (toDict divergentModel) = some m2 ∧
      m2.order = divergentModel.order ∧
      m2.starts.Perm divergentModel.starts ∧
      (transTriples m2).Perm (transTriples divergentModel) :=
  ⟨by decide, claim_C1_roundtrip 1 ["a . . . .".toList] divergentModel (by decide)⟩

/-- Counterexample to C3 as stated: `from_dict` applied to a record with
no `starts` and no `transitions` field does not raise — it silently
produces the default model (order 2, empty table, no start states). -/
theorem claim_C3_counterexample :
    fromDict { version := none, order := none, starts := none, transitions := none } =
      some { order := 2, transitions := [], starts := [] } := by
  decide

/-- C3 (amended): `from_dict` never raises on a missing field — each one is
silently defaulted independently: a missing `starts` becomes the empty
collection, a missing `transitions` the empty table, a missing `order` the
value 2 — and the only load-time failure, for any snapshot, is an explicit
order below 1 (rejected by the constructor). -/
theorem claim_C3_lenient_load (data : Snapshot) :
    (fromDict data = none ↔ data.order.getD 2 < 1) ∧
    (data.order = none → ∀ m, fromDict data = some m → m.order = 2) ∧
    (data.starts = none → ∀ m, fromDict data = some m → m.starts = []) ∧
    (data.transitions = none → ∀ m, fromDict data = some m → m.transitions = []) := by
  by_cases hord : data.order.getD 2 < 1
  · have hnone : fromDict data = none := by
      simp only [fromDict]
      rw [if_pos hord]
    refine ⟨⟨fun _ => hord, fun _ => hnone⟩, ?_, ?_, ?_⟩ <;>
      · intro _ m hm
        rw [hnone] at hm
        exact absurd hm (by simp)
  · have hsome : fromDict data = some
        { order := (data.order.getD 2).toNat
          transitions := (data.transitions.getD []).foldl
            (fun acc p => dictInsert acc (splitPipes p.1) p.2) []
          starts := (data.starts.getD []).map splitPipes } := by
      simp only [fromDict]
      rw [if_neg hord]
    refine ⟨⟨fun h => ?_, fun h => absurd h hord⟩, ?_, ?_, ?_⟩
    · rw [hsome] at h
      exact absurd h (by simp)
    · intro ho m hm
      rw [hsome] at hm
      cases Option.some.inj hm
      simp [ho]
    · intro hs m hm
      rw [hsome] at hm
      cases Option.some.inj hm
      simp [hs]
    · intro ht m hm
      rw [hsome] at hm
      cases Option.some.inj hm
      simp [ht]

/-- Witness for C3: a record with order 0 fails; records missing exactly
one of `order`, `starts` or `transitions` (the other fields present) get
just that field defaulted. -/
theorem claim_C3_lenient_load_witness :
    (fromDict
        { version := none, order := some 0, starts := some [], transitions := some [] } =
        none ↔ (Option.some (0 : Int)).getD 2 < 1) ∧
    ({ order := 2, transitions := [], starts := [] } : MarkovChain).order = 2 ∧
    ({ order := 2, transitions := [], starts := [] } : MarkovChain).starts = [] ∧
    ({ order := 2, transitions := [], starts := [[['x']]] } : MarkovChain).transitions = [] :=
  ⟨(claim_C3_lenient_load
      { version := none, order := some 0, starts := some [], transitions := some [] }).1,
   (claim_C3_lenient_load
      { version := none, order := none, starts := some [], transitions := some [] }).2.1
     rfl _ (by decide),
   (claim_C3_lenient_load
      { version := none, order := some 2, starts := none, transitions := some [] }).2.2.1
     rfl _ (by decide),
   (claim_C3_lenient_load
      { version := none, order := some 2, starts := some [['x']], transitions := none }).2.2.2
     rfl _ (by decide)⟩
